import Mathlib

/-!
Verification of the Seyi text editor core (document/edit engine) against its
specification.  The Go source is shallowly embedded: lines are lists of
Unicode code points (Go `[]rune`), Go strings are lists of code points
together with an explicit UTF-8 byte-length function (Go `len` on a string
counts bytes), slices are modelled with value semantics, and `time.Time`
values are integers (nanoseconds).  Row/column state is kept in `Nat`
(the Go code keeps them non-negative); functions whose Go arguments are
meaningfully signed (`jump`, the goto-line command) take `Int` arguments.
-/

namespace Seyi

/-- A Go string / rune slice: a sequence of Unicode code points. -/
abbrev Str := List Char

/-- A line of the document (Go `[]rune`, no embedded newlines expected). -/
abbrev Line := List Char

/-- Number of bytes in the UTF-8 encoding of one code point.  Models what a
single rune contributes to Go `len(string)`. -/
def utf8Len (c : Char) : Nat :=
  if c.toNat < 0x80 then 1
  else if c.toNat < 0x800 then 2
  else if c.toNat < 0x10000 then 3
  else 4

/-- Go `len(s)` for a string `s`: the total UTF-8 byte length. -/
def goLen (s : Str) : Nat := (s.map utf8Len).sum

/-- Display width of a code point.  Models the external `go-runewidth`
`RuneWidth` for the code points exercised in this development: narrow
characters (ASCII, Latin) have width 1, East-Asian wide ranges width 2. -/
def runeWidth (c : Char) : Nat :=
  let n := c.toNat
  if (0x1100 ≤ n ∧ n ≤ 0x115F) ∨ (0x2E80 ≤ n ∧ n ≤ 0x303E) ∨
     (0x3041 ≤ n ∧ n ≤ 0x33FF) ∨ (0x3400 ≤ n ∧ n ≤ 0x4DBF) ∨
     (0x4E00 ≤ n ∧ n ≤ 0x9FFF) ∨ (0xAC00 ≤ n ∧ n ≤ 0xD7A3) ∨
     (0xF900 ≤ n ∧ n ≤ 0xFAFF) ∨ (0xFF00 ≤ n ∧ n ≤ 0xFF60) ∨
     (0xFFE0 ≤ n ∧ n ≤ 0xFFE6) ∨ (0x20000 ≤ n ∧ n ≤ 0x3FFFD) then 2 else 1

/-- Go `strings.Split(s, "\n")`: splits a string at every newline, always
returning at least one (possibly empty) segment. -/
def splitOnNl : Str → List Str
  | [] => [[]]
  | c :: rest =>
    if c = '\n' then [] :: splitOnNl rest
    else
      match splitOnNl rest with
      | [] => [[c]]
      | h :: t => (c :: h) :: t

/-- Go `strings.Join(segs, "\n")`, also the shape produced by the
`strings.Builder` in `deleteRange` (each segment followed by a newline,
except the last). -/
def joinNl : List Str → Str
  | [] => []
  | [s] => s
  | s :: rest => s ++ '\n' :: joinNl rest

/-- Go `leadingWhitespaces`: index of the first character that is neither a
space nor a tab, or the length of the line. -/
def leadingWhitespaces : Line → Nat
  | [] => 0
  | c :: rest => if c ≠ ' ' ∧ c ≠ '\t' then 0 else leadingWhitespaces rest + 1

/-- Tab stop width used by the editor (`tabSize`). -/
def tabSize : Nat := 4

/-- Helper for `columnToScreenWidth`: walk at most `col` characters,
accumulating the screen width (tabs advance to the next tab stop). -/
def ctswAux : Str → Nat → Nat → Nat
  | [], _, acc => acc
  | _, 0, acc => acc
  | c :: rest, col + 1, acc =>
    ctswAux rest col (acc + (if c = '\t' then tabSize - acc % tabSize else runeWidth c))

/-- Go `columnToScreenWidth`: converts a column index in the line to its
screen width, accounting for tabs and double-width characters. -/
def columnToScreenWidth (line : Str) (col : Nat) : Nat :=
  ctswAux line col 0

/-- Helper for `columnFromScreenWidth`: walk the line accumulating width,
returning the index of the character whose span contains `screenCol`. -/
def cfswAux : Str → Nat → Int → Nat → Nat
  | [], i, _, _ => i
  | c :: rest, i, sc, w =>
    let w' := w + (if c = '\t' then tabSize - w % tabSize else runeWidth c)
    if sc < (w' : Int) then i else cfswAux rest (i + 1) sc w'

/-- Go `columnFromScreenWidth`: converts a screen width back to a column
index in the line (a width falling inside a glyph's span maps to that
glyph's starting column). -/
def columnFromScreenWidth (line : Str) (screenCol : Int) : Nat :=
  if screenCol ≤ 0 then 0 else cfswAux line 0 screenCol 0

/-- Digit count of a positive number, as the Go loop `for i := n; i > 0; i = i/10`. -/
def numDigits (n : Nat) : Nat :=
  if h : n = 0 then 0 else numDigits (n / 10) + 1
decreasing_by exact Nat.div_lt_self (Nat.pos_of_ne_zero h) (by omega)

/-- Kind of a journal entry (Go constants `editInsert`, `editDelete`, `editReplace`). -/
inductive EditKind | insert | delete | replace
deriving DecidableEq, Repr

/-- A reversible edit record (Go struct `Edit`); `time` is in nanoseconds. -/
structure Edit where
  row : Nat
  col : Nat
  oldText : Str
  newText : Str
  kind : EditKind
  time : Int
deriving DecidableEq, Repr

/-- The editable state of one tab plus the view dimensions it is drawn with
(Go `Tab` fields used by the document/edit engine, with `height` for
`len(app.editor)` and `width` for `app.editor[0].w`).  `lastEdit` is the
value the Go `*Edit` coalescing pointer refers to, and `lastLive` records
whether that pointer still targets the top of `undoStack` (it goes stale
when `undo` pops the entry; the capacity-dependent re-aliasing a later
`append` may cause is not modelled). -/
structure EditorState where
  lines : List Line
  row : Nat
  col : Nat
  top : Int
  left : Int
  upDownCol : Int
  undoStack : List Edit
  redoStack : List Edit
  lastEdit : Option Edit
  lastLive : Bool
  height : Nat
  width : Nat
  lineNumber : Bool
deriving DecidableEq, Repr

/-- Go `Tab.line(i)` for a signed index: `nil` when the store is empty or
`i` exceeds the last row; otherwise the element reached from the front
(`for range i` performs no iterations for negative `i`, so a negative
in-between index yields the front element, i.e. index `(max i 0)`). -/
def lineAtI (lines : List Line) (i : Int) : Option Line :=
  if lines.length = 0 ∨ i > (lines.length : Int) - 1 then none
  else lines.get? i.toNat

/-- Go `State.lineNumLen`: width of the line-number gutter. -/
def lineNumLen (st : EditorState) : Nat :=
  if ¬ st.lineNumber then 0
  else if st.lines.length = 0 then 0
  else numDigits st.lines.length + 2

/-- Go `App.jump(row, col)`: clamps a signed row (negative or too large
means last row) and column (negative or too large means end of line), moves
the cursor, and re-derives the scroll offsets `top` and `left`.  Rendering
calls are dropped. -/
def jump (st : EditorState) (row col : Int) : EditorState :=
  let len : Int := st.lines.length
  let row := if row < 0 ∨ row > len - 1 then len - 1 else row
  match lineAtI st.lines row with
  | none => st
  | some line =>
    let col := if col < 0 ∨ col > (line.length : Int) then (line.length : Int) else col
    let h : Int := st.height
    let top' : Int :=
      if row = 0 then 0
      else if row = len - 1 then max 0 (len - h)
      else if row < st.top then
        (if row = st.top - 1 then st.top - 1 else max 0 (row - h / 2))
      else if row > st.top + h - 1 then
        (if row = st.top + h then st.top + 1 else row - h / 2)
      else st.top
    let i : Int := columnToScreenWidth line col.toNat
    let margin : Int := (st.width : Int) - (lineNumLen st : Int) - 1
    let left' : Int :=
      if i < st.left then i
      else if i > st.left + margin then i - margin
      else st.left
    { st with row := row.toNat, col := col.toNat, top := top', left := left' }

/-- Go `reverse(e)`: the structural inverse of an edit (Insert↔Delete swap
text fields, Replace swaps old/new); unset fields are zero values. -/
def reverse (e : Edit) : Edit :=
  match e.kind with
  | .insert => { row := e.row, col := e.col, oldText := e.newText, newText := [], kind := .delete, time := 0 }
  | .delete => { row := e.row, col := e.col, oldText := [], newText := e.oldText, kind := .insert, time := 0 }
  | .replace => { row := e.row, col := e.col, oldText := e.newText, newText := e.oldText, kind := .replace, time := 0 }

/-- Go `State.insertAt(s, row, col)`: inserts a possibly multi-line string,
splitting lines as needed, and moves the cursor to the end of the inserted
text (`row` out of range appends a fresh empty line at the back and edits
that, as `PushBack` does).  This definition idealizes Go's `append` as
copying (value semantics); that is exact for the single-line branch
(`slices.Insert`, whose result replaces the line and whose source is not
read again), but in the multi-line branch the real
`append(origin[:col], chars...)` can overwrite `origin`'s backing array in
place before `origin[col:]` is read for the last inserted line — see
`insertAtGo` for the aliasing-faithful model of that branch. -/
def insertAt (st : EditorState) (s : Str) (row col : Nat) : EditorState :=
  if s = [] then st
  else
    let valid := row < st.lines.length
    let ls0 := if valid then st.lines else st.lines ++ [[]]
    let i := if valid then row else st.lines.length
    let origin := ls0.getD i []
    match splitOnNl s with
    | [] => st
    | [seg] =>
      let line' := origin.take col ++ seg ++ origin.drop col
      { st with lines := ls0.set i line', row := row, col := col + seg.length }
    | seg0 :: rest =>
      let segLast := rest.getLastD []
      let mids := rest.dropLast
      let first' := origin.take col ++ seg0
      let last' := segLast ++ origin.drop col
      { st with lines := ls0.take i ++ [first'] ++ mids ++ [last'] ++ ls0.drop (i + 1),
                row := st.row + rest.length,
                col := segLast.length }

/-- Go `State.insertAt`, multi-line branch, with the in-place `append`
aliasing of the real program modelled.  `cap0` is the capacity of the
backing array of the line at the insertion row.  Go's
`append(origin[:col], chars...)` (the `i == 0` iteration) reuses that
array exactly when `col + len(chars) ≤ cap(origin)` — and since
`cap ≥ len` always holds, it is guaranteed whenever
`col + len(chars) ≤ len(origin)` — writing the first segment over
positions `[col, col+len(chars))` before the `i == len(lines)-1`
iteration reads `origin[col:]` for the last inserted line.  `originAfter`
is that corrupted view; with a capacity too small for reuse the function
coincides with the value-semantics `insertAt`. -/
def insertAtGo (st : EditorState) (s : Str) (row col : Nat) (cap0 : Nat) : EditorState :=
  if s = [] then st
  else
    let valid := row < st.lines.length
    let ls0 := if valid then st.lines else st.lines ++ [[]]
    let i := if valid then row else st.lines.length
    let origin := ls0.getD i []
    match splitOnNl s with
    | [] => st
    | [seg] =>
      let line' := origin.take col ++ seg ++ origin.drop col
      { st with lines := ls0.set i line', row := row, col := col + seg.length }
    | seg0 :: rest =>
      let originAfter :=
        if col + seg0.length ≤ cap0 then
          origin.take col ++ seg0.take (origin.length - col) ++ origin.drop (col + seg0.length)
        else origin
      let segLast := rest.getLastD []
      let mids := rest.dropLast
      let first' := origin.take col ++ seg0
      let last' := segLast ++ originAfter.drop col
      { st with lines := ls0.take i ++ [first'] ++ mids ++ [last'] ++ ls0.drop (i + 1),
                row := st.row + rest.length,
                col := segLast.length }

/-- Go `State.deleteRange(startRow, startCol, endRow, endCol)`: removes the
half-open span, merges the remainder of the last row into the prefix of the
first, moves the cursor to the start of the range, and returns the deleted
text with newline separators.  In-range arguments are assumed (the Go code
panics or silently truncates otherwise). -/
def deleteRange (st : EditorState) (startRow startCol endRow endCol : Nat) :
    EditorState × Str :=
  if startRow = endRow then
    let line := st.lines.getD startRow []
    let deleted := (line.take endCol).drop startCol
    let line' := line.take startCol ++ line.drop endCol
    ({ st with lines := st.lines.set startRow line', row := startRow, col := startCol }, deleted)
  else
    let first := st.lines.getD startRow []
    let last := st.lines.getD endRow []
    let mids := (st.lines.drop (startRow + 1)).take (endRow - startRow - 1)
    let deleted := joinNl ([first.drop startCol] ++ mids ++ [last.take endCol])
    let merged := first.take startCol ++ last.drop endCol
    ({ st with lines := st.lines.take startRow ++ [merged] ++ st.lines.drop (endRow + 1),
               row := startRow, col := startCol }, deleted)

/-- Go `State.applyEdit(e)`: applies an edit to the line store.  For deletes
and replaces the end column is computed with Go `len` on the byte string
(`goLen`), although `deleteRange` consumes code-point indices. -/
def applyEdit (st : EditorState) (e : Edit) : EditorState :=
  match e.kind with
  | .insert => insertAt st e.newText e.row e.col
  | .delete =>
    let segs := splitOnNl e.oldText
    if segs.length = 1 then
      (deleteRange st e.row e.col e.row (e.col + goLen e.oldText)).1
    else
      (deleteRange st e.row e.col (e.row + segs.length - 1) (goLen (segs.getLastD []))).1
  | .replace =>
    let segs := splitOnNl e.oldText
    let st' :=
      if segs.length = 1 then
        (deleteRange st e.row e.col e.row (e.col + goLen e.oldText)).1
      else
        (deleteRange st e.row e.col (e.row + segs.length - 1) (goLen (segs.getLastD []))).1
    insertAt st' e.newText e.row e.col

/-- The coalescing window (Go `time.Second` in nanoseconds). -/
def second : Int := 1000000000

/-- Go `State.recordEdit(e)`: attempts to coalesce with the edit the
`lastEdit` pointer refers to (mutating through the pointer, which updates
the top of the undo stack exactly when the pointer is still live);
otherwise pushes a fresh timestamped entry, clears the redo stack and
points `lastEdit` at the new top. -/
def recordEdit (st : EditorState) (now : Int) (e : Edit) : EditorState :=
  let e' : Edit := { e with time := now }
  let pushed : EditorState :=
    { st with undoStack := st.undoStack ++ [e'], redoStack := [],
              lastEdit := some e', lastLive := true }
  match st.lastEdit with
  | none => pushed
  | some le =>
    if e.kind = le.kind ∧ e.kind ≠ .replace ∧ e.row = le.row ∧ now - le.time < second then
      if e.kind = .insert ∧ le.col + goLen le.newText = e.col then
        let le' := { le with newText := le.newText ++ e.newText, time := now }
        { st with lastEdit := some le',
                  undoStack := if st.lastLive then st.undoStack.dropLast ++ [le'] else st.undoStack }
      else if e.kind = .delete ∧ (e.col : Int) = (le.col : Int) - (goLen e.oldText : Int) then
        let le' := { le with oldText := e.oldText ++ le.oldText, col := e.col, time := now }
        { st with lastEdit := some le',
                  undoStack := if st.lastLive then st.undoStack.dropLast ++ [le'] else st.undoStack }
      else pushed
    else pushed

/-- The coalescing condition of `recordEdit`, spelled out: same kind (never
Replace), same row, previous timestamp within one second of now, and the
contiguity condition — for Insert the previous entry's `col + len(newText)`
equals the new edit's column, for Delete the new edit's column equals the
previous entry's `col - len(oldText)` (with `len` the Go byte length and
`oldText` the new edit's, as in the code). -/
def mergeCond (le e : Edit) (now : Int) : Prop :=
  e.kind = le.kind ∧ e.kind ≠ .replace ∧ e.row = le.row ∧ now - le.time < second ∧
    (e.kind = .insert ∧ le.col + goLen le.newText = e.col ∨
     e.kind = .delete ∧ (e.col : Int) = (le.col : Int) - (goLen e.oldText : Int))

/-- The combined entry a successful coalescing produces: texts merged, the
timestamp refreshed, and (for Delete) the column moved back to the new
edit's column. -/
def mergeEdit (le e : Edit) (now : Int) : Edit :=
  if e.kind = .insert then { le with newText := le.newText ++ e.newText, time := now }
  else { le with oldText := e.oldText ++ le.oldText, col := e.col, time := now }

/-- Go `State.undo`: pops the top of the undo stack, applies its structural
reverse, and pushes the original entry onto the redo stack.  The popped
entry is no longer the target of the `lastEdit` pointer (`lastLive` drops). -/
def undo (st : EditorState) : EditorState :=
  match st.undoStack.getLast? with
  | none => st
  | some e =>
    let st' := applyEdit { st with undoStack := st.undoStack.dropLast } (reverse e)
    { st' with redoStack := st'.redoStack ++ [e], lastLive := false }

/-- Go `State.redo`: pops the top of the redo stack, re-applies the edit and
pushes it back onto the undo stack. -/
def redo (st : EditorState) : EditorState :=
  match st.redoStack.getLast? with
  | none => st
  | some e =>
    let st' := applyEdit { st with redoStack := st.redoStack.dropLast } e
    { st' with undoStack := st'.undoStack ++ [e] }

/-- A fresh single-tab state, as built in `main` (empty line store, default
80×24-ish view with a 10-row editor area used throughout the examples). -/
def baseState : EditorState :=
  { lines := [], row := 0, col := 0, top := 0, left := 0, upDownCol := -1,
    undoStack := [], redoStack := [], lastEdit := none, lastLive := false,
    height := 10, width := 80, lineNumber := false }

/-- Go `editorEvent` on `KeyUp` without modifiers and with no active
selection: clears the coalescing pointer, moves one row up maintaining
`upDownCol` (the raw code-point column to keep while navigating
vertically), then jumps.  A `nil` line dereference (unreachable when the
cursor row is in range) is modelled as a no-op. -/
def keyUp (st : EditorState) : EditorState :=
  let st := { st with lastEdit := none, lastLive := false }
  if st.row = 0 then st
  else
    let row' := st.row - 1
    match st.lines.get? row' with
    | none => st
    | some line =>
      let p : Nat × Int :=
        if line.length = 0 then (0, st.upDownCol)
        else if 0 ≤ st.upDownCol then (min line.length st.upDownCol.toNat, st.upDownCol)
        else (min line.length st.col, (st.col : Int))
      jump { st with row := row', col := p.1, upDownCol := p.2 } (row' : Int) (p.1 : Int)

/-- Go `editorEvent` on `KeyDown` without modifiers and with no active
selection; symmetric to `keyUp`. -/
def keyDown (st : EditorState) : EditorState :=
  let st := { st with lastEdit := none, lastLive := false }
  if (st.row : Int) = (st.lines.length : Int) - 1 then st
  else
    let row' := st.row + 1
    match st.lines.get? row' with
    | none => st
    | some line =>
      let p : Nat × Int :=
        if line.length = 0 then (0, st.upDownCol)
        else if 0 ≤ st.upDownCol then (min line.length st.upDownCol.toNat, st.upDownCol)
        else (min line.length st.col, (st.col : Int))
      jump { st with row := row', col := p.1, upDownCol := p.2 } (row' : Int) (p.1 : Int)

/-- One vertical cursor move (`true` = Up, `false` = Down). -/
def verticalMove (up : Bool) (st : EditorState) : EditorState :=
  if up then keyUp st else keyDown st

/-- A sequence of consecutive vertical cursor moves. -/
def applyMoves (moves : List Bool) (st : EditorState) : EditorState :=
  moves.foldl (fun s d => verticalMove d s) st

/-- The vertical-movement invariant the code actually maintains once the
ideal column `u` has been fixed: the cursor row stays in range, the ideal
column is unchanged, and the cursor column is 0 on an empty line and
`min(lineLength, u)` otherwise. -/
def colIdealInv (u : Int) (st : EditorState) : Prop :=
  st.row < st.lines.length ∧ st.upDownCol = u ∧
    st.col = (if (st.lines.getD st.row []).length = 0 then 0
              else min (st.lines.getD st.row []).length u.toNat)

/-- Go `editorEvent` on `KeyEnter`: unconditionally discards the whole edit
journal, then splits the current line at the cursor (with auto-indent
unless the indent is zero or the previous key arrived less than 10ms ago,
here the `fast` flag), or appends an empty line at file end.  Rendering is
dropped. -/
def keyEnter (st : EditorState) (fast : Bool) : EditorState :=
  let st := { st with lastEdit := none, lastLive := false, undoStack := [], redoStack := [] }
  let st :=
    match st.lines.get? st.row with
    | none => { st with lines := st.lines ++ [[]] }
    | some line =>
      let n := leadingWhitespaces (line.take st.col)
      let newLine := if n = 0 ∨ fast then line.drop st.col
                     else line.take n ++ line.drop st.col
      { st with
          lines := ((st.lines.set st.row (line.take st.col)).take (st.row + 1)) ++
                   [newLine] ++ ((st.lines.set st.row (line.take st.col)).drop (st.row + 1)),
          col := n }
  let st := { st with row := st.row + 1 }
  jump st (st.row : Int) (st.col : Int)

/-- Go `editorEvent` on `KeyBackspace` with no active selection: at column 0
of a non-first row it discards the whole edit journal and merges the row
into the previous one; otherwise it deletes one code point before the
cursor and records a coalescible Delete edit.  `now` is the current clock
for `recordEdit`. -/
def keyBackspace (st : EditorState) (now : Int) : EditorState :=
  if st.col = 0 then
    if st.row = 0 then st
    else
      let st := { st with lastEdit := none, lastLive := false, undoStack := [], redoStack := [] }
      let cur := st.lines.getD st.row []
      let prev := st.lines.getD (st.row - 1) []
      let st := { st with col := prev.length,
                          lines := ((st.lines.set (st.row - 1) (prev ++ cur)).take st.row) ++
                                   ((st.lines.set (st.row - 1) (prev ++ cur)).drop (st.row + 1)),
                          row := st.row - 1 }
      jump st (st.row : Int) (st.col : Int)
  else
    let line := st.lines.getD st.row []
    let deleted := line.getD (st.col - 1) ' '
    let line' := line.take (st.col - 1) ++ line.drop st.col
    let st := { st with lines := st.lines.set st.row line' }
    let st := recordEdit st now
      { row := st.row, col := st.col - 1, oldText := [deleted], newText := [],
        kind := .delete, time := 0 }
    let st := { st with col := st.col - 1 }
    jump st (st.row : Int) (st.col : Int)

/-- The status message issued by the goto-line command for an out-of-range
line number. -/
def outOfRangeMsg : Str := "Line number out of range".toList

/-- Go `handleCommand`, branch `case ':'`, after `strconv.Atoi` succeeded
with value `n`: an out-of-range number (including any negative one) is
rejected with a status message and no state change; otherwise the cursor
jumps to row `n-1`, column 0.  The focus switch is not modelled. -/
def handleGotoLine (st : EditorState) (n : Int) : EditorState × Option Str :=
  if n < 1 ∨ n > (st.lines.length : Int) then (st, some outOfRangeMsg)
  else (jump st (n - 1) 0, none)

/-- ASCII lower-casing of one character; models Go `strings.ToLower` for the
inputs exercised here (the Go version also folds non-ASCII letters). -/
def asciiLower (c : Char) : Char :=
  if 'A' ≤ c ∧ c ≤ 'Z' then Char.ofNat (c.toNat + 32) else c

/-- Lower-cased copy of a string. -/
def lowerStr (s : Str) : Str := s.map asciiLower

/-- Go `strings.Contains(strings.ToLower(name), strings.ToLower(keyword))`:
case-insensitive substring match. -/
def containsInsensitive (keyword name : Str) : Bool :=
  decide (lowerStr keyword <:+: lowerStr name)

/-- The candidate-filter step shared by `@`-symbol and filename completion:
keep the names that contain the keyword case-insensitively. -/
def filterFiles (files : List Str) (keyword : Str) : List Str :=
  files.filter (containsInsensitive keyword)

/-- The in-place partition loop of `consoleEvent` (`j := 0; for i := range
filter { if prefix-match { swap filter[i], filter[j]; j++ } }`), written
out over the three regions of the array it maintains: `ms` is
`filter[0:j]` (the matches moved forward), `us` is `filter[j:i]`, and the
third argument is the unprocessed tail `filter[i:]`.  A swap appends
`filter[i]` to the matched region and sends the displaced `filter[j]` —
the head of `us` — to position `i`, i.e. to the back of `us`. -/
def moveForwardAux (p : Str → Bool) : List Str → List Str → List Str → List Str
  | ms, us, [] => ms ++ us
  | ms, us, x :: rest =>
    if p x then
      match us with
      | [] => moveForwardAux p (ms ++ [x]) [] rest
      | u :: utail => moveForwardAux p (ms ++ [x]) (utail ++ [u]) rest
    else moveForwardAux p ms (us ++ [x]) rest

/-- The reordering pass that moves prefix matches in front of
substring-only matches (filename mode uses the case-sensitive test
`strings.Index(name, keyword) == 0`). -/
def moveForward (keyword : Str) (xs : List Str) : List Str :=
  moveForwardAux (fun name => decide (keyword <+: name)) [] [] xs

/-- Go `consoleEvent`, `KeyRune` default branch (filename-open mode), the
candidate-list update: returns the new `(options, optionIdx)` given the
file list, the console keyword, and the previous pair.  An empty file list
leaves both unchanged; an empty filter result clears the list (the index is
left as it was); otherwise the reordered matches are stored and the index
resets to 0. -/
def consoleFileRune (files : List Str) (keyword : Str)
    (prevOptions : List Str) (prevIdx : Int) : List Str × Int :=
  if files = [] then (prevOptions, prevIdx)
  else
    let filter := filterFiles files keyword
    if filter = [] then ([], prevIdx)
    else (moveForward keyword filter, 0)

/-- The two fields of the Go `Symbol` struct that the console's `@` branch
reads (`Name` and `Receiver`). -/
structure Symbol where
  name : Str
  receiver : Str
deriving DecidableEq, Repr

/-- The candidate name the `@` branch builds for a symbol:
`Receiver + "." + Name` for methods and fields, plain `Name` otherwise. -/
def symbolName (sym : Symbol) : Str :=
  if sym.receiver ≠ [] then sym.receiver ++ '.' :: sym.name else sym.name

/-- Candidate symbol names matching the keyword, in iteration order of the
flattened symbol table.  (The Go code ranges over a map, whose order is
nondeterministic; the sort applied next makes the final list independent
of it.) -/
def filterSymbols (syms : List Symbol) (keyword : Str) : List Str :=
  (syms.map symbolName).filter (containsInsensitive keyword)

/-- Lexicographic (code-point order) strict comparison; Go's `string <`
compares UTF-8 bytes, which orders exactly by code points. -/
def lexLt : Str → Str → Bool
  | [], [] => false
  | [], _ :: _ => true
  | _ :: _, [] => false
  | a :: as, b :: bs =>
    if a.toNat < b.toNat then true
    else if b.toNat < a.toNat then false
    else lexLt as bs

/-- Insert into a `lexLt`-sorted list, keeping it sorted. -/
def insertSorted (x : Str) : List Str → List Str
  | [] => [x]
  | y :: ys => if lexLt y x then y :: insertSorted x ys else x :: y :: ys

/-- Models Go `slices.Sort` on the candidate strings.  Any correct sorting
algorithm produces the same list here (equal strings are
indistinguishable), so an insertion sort stands in for Go's pdqsort. -/
def sortStrings : List Str → List Str
  | [] => []
  | x :: xs => insertSorted x (sortStrings xs)

/-- The reordering pass of the `@` branch: the same swap-based partition as
filename mode, but with the case-insensitive prefix test
`strings.Index(strings.ToLower(name), strings.ToLower(keyword)) == 0`. -/
def moveForwardCI (keyword : Str) (xs : List Str) : List Str :=
  moveForwardAux (fun name => decide (lowerStr keyword <+: lowerStr name)) [] [] xs

/-- Go `consoleEvent`, `KeyRune` branch for `@`-symbol mode, the
candidate-list update: an empty keyword (console holding just `@`) leaves
everything unchanged; no match clears the list; otherwise the matching
receiver-qualified names are sorted, partitioned so case-insensitive
prefix matches come first, and the selected index resets to 0. -/
def consoleSymbolRune (syms : List Symbol) (keyword : Str)
    (prevOptions : List Str) (prevIdx : Int) : List Str × Int :=
  if keyword = [] then (prevOptions, prevIdx)
  else
    let filter := filterSymbols syms keyword
    if filter = [] then ([], prevIdx)
    else (moveForwardCI keyword (sortStrings filter), 0)

/-- Go `handleCommand`, branch `case "save"`, the bytes written with
`os.WriteFile`: the buffer's lines joined with a newline, with one empty
line appended first when the buffer is empty or its last line is
non-empty.  (The Go code also pushes that empty line into the buffer
itself; only the written content is modelled.) -/
def saveContent (lines : List Line) : Str :=
  let content := if lines = [] ∨ lines.getLastD [] ≠ [] then lines ++ [[]] else lines
  joinNl content

/-! Definitions written from the specification's words, for refinement
comparisons against the code-derived definitions above. -/

/-- Destination column for vertical movement as the spec words it: the
preserved ideal column is the screen column of the source position, and the
destination row's logical column is the inverse-mapped nearest column not
exceeding that line's screen width. -/
def specScreenIdealDest (srcLine : Line) (srcCol : Nat) (destLine : Line) : Nat :=
  columnFromScreenWidth destLine (columnToScreenWidth srcLine srcCol : Int)

/-- Candidate reordering as the spec words it: every prefix-match precedes
every substring-only match, with the relative order preserved (stable)
within each of the two groups. -/
def specStableReorder (keyword : Str) (xs : List Str) : List Str :=
  xs.filter (fun n => decide (keyword <+: n)) ++
    xs.filter (fun n => decide (¬ keyword <+: n))

/-- The spec's phrase for the save contract: the written content ends with
exactly one trailing newline. -/
def endsWithOneNewline (s : Str) : Bool :=
  s.getLast? = some '\n' ∧ ¬ s.dropLast.getLast? = some '\n'

/-! Concrete states used by the evaluation, counterexample and witness
theorems. -/

/-- A one-line document `abc` with the cursor at the origin. -/
def c1Base : EditorState := { baseState with lines := ["abc".toList] }

/-- Insertion of the two-byte code point `é` at (0,0). -/
def c1Edit : Edit :=
  { row := 0, col := 0, oldText := [], newText := "é".toList, kind := .insert, time := 0 }

/-- The document after `c1Edit` was applied and recorded. -/
def c1After : EditorState := applyEdit (recordEdit c1Base 0 c1Edit) c1Edit

/-- The two-line spec example document `hello` / `world`. -/
def c2State : EditorState :=
  { baseState with lines := ["hello".toList, "world".toList] }

/-- A minimal two-line document `ab` / `cd` on which the multi-line
round trip corrupts the tail under Go's append aliasing. -/
def c2SmallState : EditorState :=
  { baseState with lines := ["ab".toList, "cd".toList] }

/-- Symbols for the `@`-mode witness: the plain name `abc` (a
substring-only match for `b`) and the method name `boo.Foo` (whose
lower-cased form starts with `b`). -/
def c8Syms : List Symbol :=
  [{ name := "abc".toList, receiver := [] }, { name := "Foo".toList, receiver := "boo".toList }]

/-- A recorded single-character backward deletion at (0,2) (the result of a
backspace at column 3 of `  ab`). -/
def c4Popped : Edit :=
  { row := 0, col := 2, oldText := "a".toList, newText := [], kind := .delete, time := 0 }

/-- The journal state right after undoing `c4Popped` and pressing Ctrl-A
(which moves the cursor to column 2 without clearing the coalescing
pointer): the redo stack holds the undone edit and `lastEdit` still refers
to its stale value. -/
def c4State : EditorState :=
  { baseState with
    lines := ["  ab".toList], row := 0, col := 2
    undoStack := [], redoStack := [c4Popped]
    lastEdit := some c4Popped, lastLive := false }

/-- The next backspace at column 2: it deletes the space at column 1, which
satisfies every coalescing condition against `c4Popped`. -/
def c4Next : Edit :=
  { row := 0, col := 1, oldText := " ".toList, newText := [], kind := .delete, time := 0 }

/-- A two-line document for the goto-line claim. -/
def c5State : EditorState := { baseState with lines := ["aa".toList, "bb".toList] }

/-- A document whose first line is wide CJK text and whose second line is
ASCII, with the cursor at the end of the first line. -/
def c6State : EditorState :=
  { baseState with
    lines := ["文字".toList, "abcdef".toList], row := 0, col := 2, upDownCol := -1 }

/-- A 30-line document viewed through a 10-row editor area. -/
def c7State : EditorState := { baseState with lines := List.replicate 30 ['x'] }

/-- A file list in which `ab` precedes `azb`, both substring-only matches
for the keyword `b`, while `ba` is a prefix match. -/
def c8Files : List Str := ["ab".toList, "azb".toList, "ba".toList]

/-- A buffer whose last two lines are empty. -/
def c9Lines : List Line := [['a'], [], []]

/-- A two-line document with a journaled edit, cursor at column 0 of the
second row. -/
def c10State : EditorState :=
  { baseState with
    lines := ["  ab".toList, "cd".toList], row := 1, col := 0
    undoStack := [c4Popped], redoStack := [c4Next]
    lastEdit := some c4Popped, lastLive := true }

/-- Insert edits used for the coalescing scenarios: typing `a`, `b`, `c`,
`d` at columns 5 through 8 of row 0. -/
def typeA : Edit := { row := 0, col := 5, oldText := [], newText := ['a'], kind := .insert, time := 0 }

/-- Second typed character of the coalescing scenario. -/
def typeB : Edit := { row := 0, col := 6, oldText := [], newText := ['b'], kind := .insert, time := 0 }

/-- Third typed character of the coalescing scenario. -/
def typeC : Edit := { row := 0, col := 7, oldText := [], newText := ['c'], kind := .insert, time := 0 }

/-- Fourth typed character of the coalescing scenario, issued after the
window expired. -/
def typeD : Edit := { row := 0, col := 8, oldText := [], newText := ['d'], kind := .insert, time := 0 }

/-- The journal after typing `a`, `b`, `c` at 0ns, 100ns and 200ns. -/
def c3Typed : EditorState :=
  recordEdit (recordEdit (recordEdit baseState 0 typeA) 100 typeB) 200 typeC

/-- The single coalesced entry of `c3Typed`. -/
def mergedABC : Edit :=
  { typeA with newText := ['a', 'b', 'c'], time := 200 }

/-! Helper lemmas. -/

/-- `jump` only moves the cursor and the scroll offsets; the line store,
the journal and the ideal column are untouched. -/
theorem jump_fields (st : EditorState) (r c : Int) :
    (jump st r c).lines = st.lines ∧ (jump st r c).undoStack = st.undoStack ∧
    (jump st r c).redoStack = st.redoStack ∧ (jump st r c).lastEdit = st.lastEdit ∧
    (jump st r c).lastLive = st.lastLive ∧ (jump st r c).upDownCol = st.upDownCol ∧
    (jump st r c).height = st.height ∧ (jump st r c).width = st.width := by
  simp only [jump]
  cases hml : lineAtI st.lines
      (if r < 0 ∨ r > (st.lines.length : Int) - 1 then (st.lines.length : Int) - 1 else r) with
  | none => simp
  | some line => simp

/-- `jump` leaves the line store unchanged. -/
theorem jump_lines (st : EditorState) (r c : Int) : (jump st r c).lines = st.lines :=
  (jump_fields st r c).1

/-- `jump` leaves the undo stack unchanged. -/
theorem jump_undoStack (st : EditorState) (r c : Int) :
    (jump st r c).undoStack = st.undoStack :=
  (jump_fields st r c).2.1

/-- `jump` leaves the redo stack unchanged. -/
theorem jump_redoStack (st : EditorState) (r c : Int) :
    (jump st r c).redoStack = st.redoStack :=
  (jump_fields st r c).2.2.1

/-- `jump` leaves the coalescing pointer unchanged. -/
theorem jump_lastEdit (st : EditorState) (r c : Int) :
    (jump st r c).lastEdit = st.lastEdit :=
  (jump_fields st r c).2.2.2.1

/-- `jump` leaves the ideal vertical column unchanged. -/
theorem jump_upDownCol (st : EditorState) (r c : Int) :
    (jump st r c).upDownCol = st.upDownCol :=
  (jump_fields st r c).2.2.2.2.2.1

/-- For an in-range natural row, `lineAtI` is plain list lookup. -/
theorem lineAtI_nat (lines : List Line) (n : Nat) (h : n < lines.length) :
    lineAtI lines (n : Int) = lines.get? n := by
  unfold lineAtI
  rw [if_neg (by omega)]
  simp

/-- `getD` recovers the element a successful `get?` returns. -/
theorem getD_of_get? {α : Type} (l : List α) (n : Nat) (a d : α)
    (h : l.get? n = some a) : l.getD n d = a := by
  have hn : n < l.length := by
    by_contra hc
    rw [List.get?_eq_none.mpr (by omega)] at h
    cases h
  rw [List.get?_eq_get hn, List.get_eq_getElem] at h
  simp [List.getD, List.getElem?_eq_getElem hn, Option.some.inj h]

/-- In-bounds rows always resolve to a line. -/
theorem lineAtI_eq_some (lines : List Line) (r : Int) (h0 : 0 ≤ r)
    (hr : r < lines.length) : ∃ line, lineAtI lines r = some line := by
  have h1 : lines.length ≠ 0 := by omega
  have h2 : ¬ r > (lines.length : Int) - 1 := by omega
  have h3 : r.toNat < lines.length := by omega
  refine ⟨lines.get ⟨r.toNat, h3⟩, ?_⟩
  simp [lineAtI, h1, h2, List.get?_eq_get h3]

/-- `jump` with an in-range row and column stores exactly that position. -/
theorem jump_row_col (st : EditorState) (r c : Int) (line : Line)
    (hml : lineAtI st.lines r = some line)
    (h0 : 0 ≤ r) (hr : r < st.lines.length)
    (hc0 : 0 ≤ c) (hc : c ≤ line.length) :
    (jump st r c).row = r.toNat ∧ (jump st r c).col = c.toNat := by
  have hcl : ¬ (r < 0 ∨ r > (st.lines.length : Int) - 1) := by omega
  have hcc : ¬ (c < 0 ∨ c > (line.length : Int)) := by omega
  simp only [jump]
  rw [if_neg hcl, hml]
  simp only [if_neg hcc]
  simp

/-- Splitting a newline-free string yields a single segment. -/
theorem splitOnNl_no_nl (s : Str) (h : '\n' ∉ s) : splitOnNl s = [s] := by
  induction s with
  | nil => rfl
  | cons c rest ih =>
    have hc : ¬ c = '\n' := fun hc => h (hc ▸ List.mem_cons_self c rest)
    have hr : '\n' ∉ rest := fun hm => h (List.mem_cons_of_mem c hm)
    simp [splitOnNl, hc, ih hr]

/-- Splitting after a first newline-free segment peels that segment off. -/
theorem splitOnNl_append_nl (s t : Str) (h : '\n' ∉ s) :
    splitOnNl (s ++ '\n' :: t) = s :: splitOnNl t := by
  induction s with
  | nil => simp [splitOnNl]
  | cons c rest ih =>
    have hc : ¬ c = '\n' := fun hc => h (hc ▸ List.mem_cons_self c rest)
    have hr : '\n' ∉ rest := fun hm => h (List.mem_cons_of_mem c hm)
    simp [splitOnNl, hc, ih hr]

/-- `splitOnNl` inverts `joinNl` on non-empty lists of newline-free
segments. -/
theorem splitOnNl_joinNl (segs : List Str) (hne : segs ≠ [])
    (h : ∀ t ∈ segs, '\n' ∉ t) : splitOnNl (joinNl segs) = segs := by
  induction segs with
  | nil => exact absurd rfl hne
  | cons s rest ih =>
    cases rest with
    | nil => exact splitOnNl_no_nl s (h s (List.mem_cons_self s []))
    | cons s2 rest2 =>
      have h1 : '\n' ∉ s := h s (List.mem_cons_self s _)
      have h2 : ∀ t ∈ s2 :: rest2, '\n' ∉ t := fun t ht => h t (List.mem_cons_of_mem s ht)
      show splitOnNl (s ++ '\n' :: joinNl (s2 :: rest2)) = s :: s2 :: rest2
      rw [splitOnNl_append_nl s _ h1, ih (by simp) h2]

/-- A join over at least two segments starts with the first segment and a
newline. -/
theorem joinNl_cons_ne (a : Str) (rest : List Str) (h : rest ≠ []) :
    joinNl (a :: rest) = a ++ '\n' :: joinNl rest := by
  cases rest with
  | nil => exact absurd rfl h
  | cons b t => rfl

/-- Appending a final segment to a non-empty join inserts one newline. -/
theorem joinNl_concat (xs : List Str) (l : Str) (hne : xs ≠ []) :
    joinNl (xs ++ [l]) = joinNl xs ++ '\n' :: l := by
  induction xs with
  | nil => exact absurd rfl hne
  | cons a rest ih =>
    cases rest with
    | nil => rfl
    | cons b rest2 =>
      show a ++ '\n' :: joinNl ((b :: rest2) ++ [l]) = (a ++ '\n' :: joinNl (b :: rest2)) ++ '\n' :: l
      rw [ih (by simp)]
      simp

/-- The last character of a join is the last character of the last
segment (when that segment is non-empty). -/
theorem joinNl_getLast? (lines : List Str) (l : Str)
    (hl : lines.getLast? = some l) (hlne : l ≠ []) :
    (joinNl lines).getLast? = l.getLast? := by
  induction lines with
  | nil => simp at hl
  | cons x rest ih =>
    cases rest with
    | nil =>
      simp at hl
      subst hl
      rfl
    | cons y rest2 =>
      have hl' : (y :: rest2).getLast? = some l := by
        rw [List.getLast?_cons_cons] at hl
        exact hl
      have hres := ih hl'
      obtain ⟨z, hz⟩ : ∃ z, l.getLast? = some z :=
        Option.isSome_iff_exists.mp (List.getLast?_isSome.mpr hlne)
      have hJne : joinNl (y :: rest2) ≠ [] := by
        intro hemp
        rw [hemp, hz] at hres
        exact Option.noConfusion hres
      obtain ⟨j, js, hJ⟩ : ∃ j js, joinNl (y :: rest2) = j :: js := by
        cases hJ0 : joinNl (y :: rest2) with
        | nil => exact absurd hJ0 hJne
        | cons j js => exact ⟨j, js, rfl⟩
      rw [hJ] at hres
      show (x ++ '\n' :: joinNl (y :: rest2)).getLast? = l.getLast?
      rw [hJ, List.getLast?_append, List.getLast?_cons_cons]
      obtain ⟨w, hw⟩ : ∃ w, (j :: js).getLast? = some w :=
        Option.isSome_iff_exists.mp (List.getLast?_isSome.mpr (by simp))
      rw [hw] at hres ⊢
      rw [show (some w).or x.getLast? = some w from rfl]
      exact hres

/-- One `KeyDown` preserves the fixed-ideal-column invariant. -/
theorem keyDown_inv (u : Int) (st : EditorState) (hu : 0 ≤ u)
    (h : colIdealInv u st) : colIdealInv u (keyDown st) := by
  obtain ⟨hrow, hud, hcol⟩ := h
  simp only [keyDown]
  by_cases hg : ((st.row : Int)) = (st.lines.length : Int) - 1
  · rw [if_pos hg]
    exact ⟨hrow, hud, hcol⟩
  · rw [if_neg hg]
    have hg2 : st.row + 1 < st.lines.length := by omega
    have hsome : st.lines.get? (st.row + 1) =
        some (st.lines.getD (st.row + 1) []) := by
      rw [List.get?_eq_get hg2, List.get_eq_getElem]
      simp [List.getD, List.getElem?_eq_getElem hg2]
    rw [hsome]
    set l' := st.lines.getD (st.row + 1) [] with hl'
    have hml : lineAtI st.lines ((st.row + 1 : Nat) : Int) = some l' := by
      rw [lineAtI_nat st.lines (st.row + 1) hg2, hsome]
    dsimp only
    by_cases hemp : l'.length = 0
    · rw [if_pos hemp]
      have hj := jump_row_col
        { st with lastEdit := none, lastLive := false, row := st.row + 1, col := 0,
                  upDownCol := st.upDownCol }
        ((st.row + 1 : Nat) : Int) ((0 : Nat) : Int) l' hml (by omega) (by exact_mod_cast hg2)
        (by omega) (by omega)
      refine ⟨?_, ?_, ?_⟩
      · rw [jump_lines, hj.1]
        simpa using hg2
      · rw [jump_upDownCol]
        exact hud
      · rw [hj.2, jump_lines, hj.1]
        have hcast : ((st.row + 1 : Nat) : Int).toNat = st.row + 1 := by omega
        rw [hcast, ← hl', if_pos hemp]
        rfl
    · rw [if_neg hemp]
      have hud0 : 0 ≤ st.upDownCol := hud ▸ hu
      rw [if_pos hud0]
      have hcb : min l'.length st.upDownCol.toNat ≤ l'.length := Nat.min_le_left _ _
      have hj := jump_row_col
        { st with lastEdit := none, lastLive := false, row := st.row + 1,
                  col := min l'.length st.upDownCol.toNat, upDownCol := st.upDownCol }
        ((st.row + 1 : Nat) : Int) ((min l'.length st.upDownCol.toNat : Nat) : Int) l' hml
        (by omega) (by exact_mod_cast hg2) (by omega) (by exact_mod_cast hcb)
      refine ⟨?_, ?_, ?_⟩
      · rw [jump_lines, hj.1]
        simpa using hg2
      · rw [jump_upDownCol]
        exact hud
      · rw [hj.2, jump_lines, hj.1]
        have hcast : ((st.row + 1 : Nat) : Int).toNat = st.row + 1 := by omega
        have hcast2 : ((min l'.length st.upDownCol.toNat : Nat) : Int).toNat =
            min l'.length st.upDownCol.toNat := by omega
        rw [hcast, hcast2, ← hl', if_neg hemp, hud]

/-- One `KeyUp` preserves the fixed-ideal-column invariant. -/
theorem keyUp_inv (u : Int) (st : EditorState) (hu : 0 ≤ u)
    (h : colIdealInv u st) : colIdealInv u (keyUp st) := by
  obtain ⟨hrow, hud, hcol⟩ := h
  simp only [keyUp]
  by_cases hg : st.row = 0
  · rw [if_pos hg]
    exact ⟨hrow, hud, hcol⟩
  · rw [if_neg hg]
    have hg2 : st.row - 1 < st.lines.length := by omega
    have hsome : st.lines.get? (st.row - 1) =
        some (st.lines.getD (st.row - 1) []) := by
      rw [List.get?_eq_get hg2, List.get_eq_getElem]
      simp [List.getD, List.getElem?_eq_getElem hg2]
    rw [hsome]
    set l' := st.lines.getD (st.row - 1) [] with hl'
    have hml : lineAtI st.lines ((st.row - 1 : Nat) : Int) = some l' := by
      rw [lineAtI_nat st.lines (st.row - 1) hg2, hsome]
    dsimp only
    by_cases hemp : l'.length = 0
    · rw [if_pos hemp]
      have hj := jump_row_col
        { st with lastEdit := none, lastLive := false, row := st.row - 1, col := 0,
                  upDownCol := st.upDownCol }
        ((st.row - 1 : Nat) : Int) ((0 : Nat) : Int) l' hml (by omega) (by exact_mod_cast hg2)
        (by omega) (by omega)
      refine ⟨?_, ?_, ?_⟩
      · rw [jump_lines, hj.1]
        simpa using hg2
      · rw [jump_upDownCol]
        exact hud
      · rw [hj.2, jump_lines, hj.1]
        have hcast : ((st.row - 1 : Nat) : Int).toNat = st.row - 1 := by omega
        rw [hcast, ← hl', if_pos hemp]
        rfl
    · rw [if_neg hemp]
      have hud0 : 0 ≤ st.upDownCol := hud ▸ hu
      rw [if_pos hud0]
      have hcb : min l'.length st.upDownCol.toNat ≤ l'.length := Nat.min_le_left _ _
      have hj := jump_row_col
        { st with lastEdit := none, lastLive := false, row := st.row - 1,
                  col := min l'.length st.upDownCol.toNat, upDownCol := st.upDownCol }
        ((st.row - 1 : Nat) : Int) ((min l'.length st.upDownCol.toNat : Nat) : Int) l' hml
        (by omega) (by exact_mod_cast hg2) (by omega) (by exact_mod_cast hcb)
      refine ⟨?_, ?_, ?_⟩
      · rw [jump_lines, hj.1]
        simpa using hg2
      · rw [jump_upDownCol]
        exact hud
      · rw [hj.2, jump_lines, hj.1]
        have hcast : ((st.row - 1 : Nat) : Int).toNat = st.row - 1 := by omega
        have hcast2 : ((min l'.length st.upDownCol.toNat : Nat) : Int).toNat =
            min l'.length st.upDownCol.toNat := by omega
        rw [hcast, hcast2, ← hl', if_neg hemp, hud]

/-- The swap-based partition loop keeps the matched region followed by the
matches of the remaining tail, in original order, and ends with some
permutation of the middle region and the remaining non-matches. -/
theorem moveForwardAux_spec (p : Str → Bool) (rest ms us : List Str) :
    ∃ r, moveForwardAux p ms us rest = ms ++ rest.filter p ++ r ∧
      r.Perm (us ++ rest.filter (fun y => !(p y))) := by
  induction rest generalizing ms us with
  | nil => exact ⟨us, by simp [moveForwardAux]⟩
  | cons x rest ih =>
    by_cases hp : p x = true
    · have hf : (x :: rest).filter p = x :: rest.filter p := by simp [List.filter_cons, hp]
      have hnf : (x :: rest).filter (fun y => !(p y)) = rest.filter (fun y => !(p y)) := by
        simp [List.filter_cons, hp]
      cases us with
      | nil =>
        obtain ⟨r, h1, h2⟩ := ih (ms ++ [x]) []
        refine ⟨r, ?_, ?_⟩
        · rw [show moveForwardAux p ms [] (x :: rest) = moveForwardAux p (ms ++ [x]) [] rest
                from by simp [moveForwardAux, hp], h1, hf]
          simp
        · rw [hnf]
          simpa using h2
      | cons u utail =>
        obtain ⟨r, h1, h2⟩ := ih (ms ++ [x]) (utail ++ [u])
        refine ⟨r, ?_, ?_⟩
        · rw [show moveForwardAux p ms (u :: utail) (x :: rest) =
                  moveForwardAux p (ms ++ [x]) (utail ++ [u]) rest
                from by simp [moveForwardAux, hp], h1, hf]
          simp
        · rw [hnf]
          exact h2.trans ((List.perm_append_singleton u utail).append_right _)
    · have hpb : p x = false := by simpa using hp
      have hf : (x :: rest).filter p = rest.filter p := by simp [List.filter_cons, hpb]
      have hnf : (x :: rest).filter (fun y => !(p y)) = x :: rest.filter (fun y => !(p y)) := by
        simp [List.filter_cons, hpb]
      obtain ⟨r, h1, h2⟩ := ih ms (us ++ [x])
      refine ⟨r, ?_, ?_⟩
      · rw [show moveForwardAux p ms us (x :: rest) = moveForwardAux p ms (us ++ [x]) rest
              from by simp [moveForwardAux, hpb], h1, hf]
      · rw [hnf]
        have heq : us ++ [x] ++ rest.filter (fun y => !(p y)) =
            us ++ x :: rest.filter (fun y => !(p y)) := by simp
        exact heq ▸ h2

/-- Setting an index back to its own element is the identity. -/
theorem list_set_self {α : Type} (l : List α) (n : Nat) (a : α)
    (h : l.get? n = some a) : l.set n a = l := by
  have hn : n < l.length := by
    by_contra hc
    rw [List.get?_eq_none.mpr (by omega)] at h
    cases h
  have ha : l[n] = a := by
    rw [List.get?_eq_get hn, List.get_eq_getElem] at h
    exact Option.some.inj h
  rw [← ha]
  apply List.ext_getElem?
  intro m
  rcases eq_or_ne m n with rfl | hm
  · rw [List.getElem?_set_eq_of_lt _ hn, List.getElem?_eq_getElem hn]
  · rw [List.getElem?_set_ne (by omega)]

/-- `getD` after `set` at the same in-range index yields the new element. -/
theorem getD_set_self {α : Type} (l : List α) (n : Nat) (a d : α)
    (h : n < l.length) : (l.set n a).getD n d = a := by
  simp [List.getD, List.getElem?_set_eq_of_lt _ h]

/-- A list is its prefix, the element at `r1`, the slice strictly between
`r1` and `r2`, the element at `r2`, and the suffix after `r2`. -/
theorem list_decomp {α : Type} (L : List α) (r1 r2 : Nat) (d : α)
    (h12 : r1 < r2) (h2 : r2 < L.length) :
    L.take r1 ++ [L.getD r1 d] ++ (L.drop (r1 + 1)).take (r2 - r1 - 1) ++
      [L.getD r2 d] ++ L.drop (r2 + 1) = L := by
  have h1 : r1 < L.length := by omega
  have e2 : L.drop r1 = L.getD r1 d :: L.drop (r1 + 1) := by
    rw [List.drop_eq_getElem_cons h1]
    congr 1
    simp [List.getD, List.getElem?_eq_getElem h1]
  have e4 : (L.drop (r1 + 1)).drop (r2 - r1 - 1) = L.drop r2 := by
    rw [List.drop_drop]
    congr 1
    omega
  have e5 : L.drop r2 = L.getD r2 d :: L.drop (r2 + 1) := by
    rw [List.drop_eq_getElem_cons h2]
    congr 1
    simp [List.getD, List.getElem?_eq_getElem h2]
  conv_rhs => rw [← List.take_append_drop r1 L, e2,
    ← List.take_append_drop (r2 - r1 - 1) (L.drop (r1 + 1)), e4, e5]
  simp

/-- C1: the claim says `undo(); redo()` restores byte-identical content for
every recorded and applied edit.  Evaluating the code at the failing input
— inserting the two-byte code point `é` at (0,0) of `abc` — shows the
restored content differs: `applyEdit` reverses an Insert by deleting
`len(newText)` bytes' worth of code points (`goLen`), so the undo removes
`éa` instead of `é` and the redo produces `ébc` instead of `éabc`. -/
theorem c1_undo_redo_multibyte_eval :
    c1After.lines = ["éabc".toList] ∧
    (redo (undo c1After)).lines = ["ébc".toList] ∧
    (redo (undo c1After)).lines ≠ c1After.lines := by decide

/-- Evaluation of `deleteRange` on a single-row range. -/
theorem deleteRange_single (st : EditorState) (r1 c1 c2 : Nat) :
    deleteRange st r1 c1 r1 c2 =
      ({ st with
          lines := st.lines.set r1 ((st.lines.getD r1 []).take c1 ++ (st.lines.getD r1 []).drop c2)
          row := r1, col := c1 },
        ((st.lines.getD r1 []).take c2).drop c1) := by
  simp [deleteRange]

/-- Evaluation of `deleteRange` on a multi-row range. -/
theorem deleteRange_multi (st : EditorState) (r1 c1 r2 c2 : Nat) (h : ¬ r1 = r2) :
    deleteRange st r1 c1 r2 c2 =
      ({ st with
          lines := st.lines.take r1 ++
            [(st.lines.getD r1 []).take c1 ++ (st.lines.getD r2 []).drop c2] ++
            st.lines.drop (r2 + 1)
          row := r1, col := c1 },
        joinNl ([(st.lines.getD r1 []).drop c1] ++
          (st.lines.drop (r1 + 1)).take (r2 - r1 - 1) ++
          [(st.lines.getD r2 []).take c2])) := by
  simp [deleteRange, h]

/-- Evaluation of `insertAt` for non-empty single-segment text at a valid
row. -/
theorem insertAt_single (st : EditorState) (s : Str) (row col : Nat)
    (hs : ¬ s = []) (hrow : row < st.lines.length) (hsplit : splitOnNl s = [s]) :
    insertAt st s row col =
      { st with
          lines := st.lines.set row
            ((st.lines.getD row []).take col ++ s ++ (st.lines.getD row []).drop col)
          row := row, col := col + s.length } := by
  simp only [insertAt, if_neg hs, if_pos hrow]
  rw [hsplit]

/-- Evaluation of `insertAt` for multi-segment text at a valid row. -/
theorem insertAt_multi (st : EditorState) (s : Str) (row col : Nat)
    (seg0 b : Str) (t : List Str)
    (hs : ¬ s = []) (hrow : row < st.lines.length)
    (hsplit : splitOnNl s = seg0 :: b :: t) :
    insertAt st s row col =
      { st with
          lines := st.lines.take row ++
            [(st.lines.getD row []).take col ++ seg0] ++ (b :: t).dropLast ++
            [(b :: t).getLastD [] ++ (st.lines.getD row []).drop col] ++
            st.lines.drop (row + 1)
          row := st.row + (b :: t).length
          col := ((b :: t).getLastD []).length } := by
  simp only [insertAt, if_neg hs, if_pos hrow]
  rw [hsplit]

/-- The intended round-trip contract holds for the idealized
(value-semantics) `insertAt`: for every valid range of a document whose
lines contain no embedded newlines, deleting and re-inserting at the
start of the range reproduces the line store.  This shows the algorithm
is designed to satisfy the contract of spec §4.3/§8.3; the real program
breaks it only through the in-place `append` aliasing modelled by
`insertAtGo`. -/
theorem deleteRange_insertAt_roundtrip_value (st : EditorState) (r1 c1 r2 c2 : Nat)
    (hr12 : r1 ≤ r2) (hr2 : r2 < st.lines.length)
    (hc1 : c1 ≤ (st.lines.getD r1 []).length)
    (hc2 : c2 ≤ (st.lines.getD r2 []).length)
    (hcc : r1 = r2 → c1 ≤ c2)
    (hnl : ∀ l ∈ st.lines, '\n' ∉ l) :
    (insertAt (deleteRange st r1 c1 r2 c2).1 (deleteRange st r1 c1 r2 c2).2 r1 c1).lines =
      st.lines := by
  have hr1 : r1 < st.lines.length := by omega
  have hl1elem : st.lines.getD r1 [] = st.lines[r1] := by
    simp [List.getD, List.getElem?_eq_getElem hr1]
  have hnl1 : '\n' ∉ st.lines.getD r1 [] := hnl _ (by rw [hl1elem]; exact List.getElem_mem hr1)
  have hget1 : st.lines.get? r1 = some (st.lines.getD r1 []) := by
    rw [List.get?_eq_get hr1, List.get_eq_getElem, hl1elem]
  have hlen1 : ((st.lines.getD r1 []).take c1).length = c1 := by
    rw [List.length_take]
    omega
  rcases Nat.eq_or_lt_of_le hr12 with heq | hltr
  · -- single-row range
    subst heq
    have hcc' := hcc rfl
    rw [deleteRange_single]
    dsimp only
    by_cases hd : ((st.lines.getD r1 []).take c2).drop c1 = []
    · have hlend : (((st.lines.getD r1 []).take c2).drop c1).length = 0 := by rw [hd]; rfl
      rw [List.length_drop, List.length_take] at hlend
      have hc1c2 : c1 = c2 := by omega
      subst hc1c2
      simp only [insertAt, if_pos hd]
      show st.lines.set r1 ((st.lines.getD r1 []).take c1 ++ (st.lines.getD r1 []).drop c1) =
        st.lines
      rw [List.take_append_drop]
      exact list_set_self st.lines r1 _ hget1
    · have hdsub : '\n' ∉ ((st.lines.getD r1 []).take c2).drop c1 := fun hm =>
        hnl1 (List.take_subset c2 _ (List.drop_subset c1 _ hm))
      have hvalid : r1 < (st.lines.set r1
          ((st.lines.getD r1 []).take c1 ++ (st.lines.getD r1 []).drop c2)).length := by
        simpa using hr1
      rw [insertAt_single _ _ _ _ hd hvalid (splitOnNl_no_nl _ hdsub)]
      dsimp only
      rw [getD_set_self st.lines r1 _ [] hr1, List.set_set]
      rw [List.take_left' hlen1, List.drop_left' hlen1]
      have e1 : (st.lines.getD r1 []).take c1 ++ ((st.lines.getD r1 []).take c2).drop c1 =
          (st.lines.getD r1 []).take c2 := by
        conv_lhs =>
          rw [show (st.lines.getD r1 []).take c1 = ((st.lines.getD r1 []).take c2).take c1 from by
            rw [List.take_take, min_eq_left hcc']]
        exact List.take_append_drop c1 _
      rw [e1, List.take_append_drop]
      exact list_set_self st.lines r1 _ hget1
  · -- multi-row range
    have hne12 : ¬ r1 = r2 := by omega
    have hlastelem : st.lines.getD r2 [] = st.lines[r2] := by
      simp [List.getD, List.getElem?_eq_getElem hr2]
    have hnlast : '\n' ∉ st.lines.getD r2 [] :=
      hnl _ (by rw [hlastelem]; exact List.getElem_mem hr2)
    have hmidnl : ∀ m ∈ (st.lines.drop (r1 + 1)).take (r2 - r1 - 1), '\n' ∉ m := fun m hm =>
      hnl m (List.drop_subset (r1 + 1) st.lines (List.take_subset _ _ hm))
    rw [deleteRange_multi _ _ _ _ _ hne12]
    dsimp only
    have hsegnl : ∀ tt ∈ ([(st.lines.getD r1 []).drop c1] ++
        (st.lines.drop (r1 + 1)).take (r2 - r1 - 1) ++
        [(st.lines.getD r2 []).take c2] : List Str), '\n' ∉ tt := by
      intro tt ht
      simp only [List.mem_append, List.mem_singleton] at ht
      rcases ht with (rfl | htm) | rfl
      · exact fun hm => hnl1 (List.drop_subset c1 _ hm)
      · exact hmidnl tt htm
      · exact fun hm => hnlast (List.take_subset c2 _ hm)
    obtain ⟨b, t, hbt⟩ : ∃ b t,
        (st.lines.drop (r1 + 1)).take (r2 - r1 - 1) ++ [(st.lines.getD r2 []).take c2] =
          b :: t := by
      cases (st.lines.drop (r1 + 1)).take (r2 - r1 - 1) with
      | nil => exact ⟨_, _, rfl⟩
      | cons m ms => exact ⟨_, _, rfl⟩
    have hsplit : splitOnNl (joinNl ([(st.lines.getD r1 []).drop c1] ++
        (st.lines.drop (r1 + 1)).take (r2 - r1 - 1) ++ [(st.lines.getD r2 []).take c2])) =
        (st.lines.getD r1 []).drop c1 :: b :: t := by
      rw [splitOnNl_joinNl _ (by simp) hsegnl]
      rw [show ([(st.lines.getD r1 []).drop c1] ++
          (st.lines.drop (r1 + 1)).take (r2 - r1 - 1) ++
          [(st.lines.getD r2 []).take c2] : List Str) =
          (st.lines.getD r1 []).drop c1 ::
            ((st.lines.drop (r1 + 1)).take (r2 - r1 - 1) ++
              [(st.lines.getD r2 []).take c2]) from by simp, hbt]
    have hdne : ¬ joinNl ([(st.lines.getD r1 []).drop c1] ++
        (st.lines.drop (r1 + 1)).take (r2 - r1 - 1) ++
        [(st.lines.getD r2 []).take c2]) = [] := by
      intro hemp
      rw [hemp] at hsplit
      simp [splitOnNl] at hsplit
    have htake_len : (st.lines.take r1).length = r1 := by
      rw [List.length_take]
      omega
    have hvalid : r1 < (st.lines.take r1 ++
        [(st.lines.getD r1 []).take c1 ++ (st.lines.getD r2 []).drop c2] ++
        st.lines.drop (r2 + 1)).length := by
      simp only [List.length_append, List.length_cons, List.length_nil]
      omega
    rw [insertAt_multi _ _ _ _ _ _ _ hdne hvalid hsplit]
    dsimp only
    rw [← hbt]
    have horigin : (st.lines.take r1 ++
        [(st.lines.getD r1 []).take c1 ++ (st.lines.getD r2 []).drop c2] ++
        st.lines.drop (r2 + 1)).getD r1 [] =
        (st.lines.getD r1 []).take c1 ++ (st.lines.getD r2 []).drop c2 := by
      apply getD_of_get?
      rw [List.append_assoc, List.get?_append_right (by omega)]
      simp [htake_len]
    rw [horigin]
    have hA1 : (st.lines.take r1 ++
        [(st.lines.getD r1 []).take c1 ++ (st.lines.getD r2 []).drop c2] ++
        st.lines.drop (r2 + 1)).take r1 = st.lines.take r1 := by
      rw [List.append_assoc]
      exact List.take_left' htake_len
    have hA2 : (st.lines.take r1 ++
        [(st.lines.getD r1 []).take c1 ++ (st.lines.getD r2 []).drop c2] ++
        st.lines.drop (r2 + 1)).drop (r1 + 1) = st.lines.drop (r2 + 1) := by
      apply List.drop_left'
      simp only [List.length_append, List.length_cons, List.length_nil]
      omega
    rw [hA1, hA2, List.take_left' hlen1, List.drop_left' hlen1]
    rw [show ((st.lines.drop (r1 + 1)).take (r2 - r1 - 1) ++
        [(st.lines.getD r2 []).take c2]).getLastD [] = (st.lines.getD r2 []).take c2 from by
      simp]
    rw [show ((st.lines.drop (r1 + 1)).take (r2 - r1 - 1) ++
        [(st.lines.getD r2 []).take c2]).dropLast = (st.lines.drop (r1 + 1)).take (r2 - r1 - 1)
      from by simp]
    rw [List.take_append_drop, List.take_append_drop]
    exact list_decomp st.lines r1 r2 [] hltr hr2

/-- C2: the claim says deleting any valid range and re-inserting the
returned string at its start reproduces the document.  Evaluating the
code at the failing input — `deleteRange(0,1,1,1)` on `ab` / `cd`
returns `b\nc`, and re-inserting it at (0,1) — shows the real multi-line
`insertAt` corrupts the reinserted tail: `append(origin[:col], seg...)`
reuses the origin line's backing array whenever `col + len(seg) ≤ cap`,
which Go guarantees here since `cap ≥ len(origin) = 2 = col + len(seg)`,
so `origin[col:]` is overwritten before the last inserted line reads it
and the document becomes `ab` / `cb` for every legal capacity. -/
theorem c2_roundtrip_aliasing_eval :
    (∀ cap0 : Nat, 2 ≤ cap0 →
      (insertAtGo (deleteRange c2SmallState 0 1 1 1).1 (deleteRange c2SmallState 0 1 1 1).2
          0 1 cap0).lines = ["ab".toList, "cb".toList]) ∧
    (deleteRange c2SmallState 0 1 1 1).2 = "b\nc".toList ∧
    (["ab".toList, "cb".toList] : List Line) ≠ c2SmallState.lines := by
  refine ⟨?_, by decide, by decide⟩
  intro cap0 hcap
  rw [show deleteRange c2SmallState 0 1 1 1 =
        ({ c2SmallState with lines := [['a', 'd']], row := 0, col := 1 }, ['b', '\n', 'c'])
      from by decide]
  dsimp only
  have hs : splitOnNl ['b', '\n', 'c'] = [['b'], ['c']] := by decide
  simp only [insertAtGo, hs]
  norm_num
  rw [if_pos (show 1 + 1 ≤ cap0 by omega)]
  decide

/-- C2 witness: the corrupted round trip evaluated at the minimal legal
capacity 2 (the length of the merged line, hence a lower bound for any
real capacity). -/
theorem c2_roundtrip_aliasing_eval_witness :
    (2 : Nat) ≤ 2 ∧
    (insertAtGo (deleteRange c2SmallState 0 1 1 1).1 (deleteRange c2SmallState 0 1 1 1).2
        0 1 2).lines = ["ab".toList, "cb".toList] :=
  ⟨by decide, c2_roundtrip_aliasing_eval.1 2 (by decide)⟩

/-- C4: the claim says every call to `recordEdit` leaves the redo stack
empty.  Evaluating the code at the failing state — reached by backspacing
`a` at column 2, pressing Ctrl-Z (undo does not clear `lastEdit`), then
Ctrl-A and another backspace, whose Delete edit satisfies every coalescing
condition against the stale `lastEdit` — shows the coalescing path returns
with the redo stack still holding the undone edit. -/
theorem c4_recordEdit_redo_eval :
    (recordEdit c4State 500000000 c4Next).redoStack = [c4Popped] ∧
    (recordEdit c4State 500000000 c4Next).redoStack ≠ [] := by decide

/-- C5 counterexample: the claim says `:<N>` is clamped to the valid line
range and a negative `N` moves the cursor to the last line.  On a two-line
document, `:-3` leaves the cursor on row 0 and emits the out-of-range
status message instead of jumping to the last line (row 1). -/
theorem c5_goto_negative_counterexample :
    (handleGotoLine c5State (-3)).1.row = 0 ∧
    (handleGotoLine c5State (-3)).2 = some outOfRangeMsg ∧
    c5State.lines.length = 2 ∧
    (handleGotoLine c5State (-3)).1.row ≠ c5State.lines.length - 1 := by decide

/-- C6 counterexample: the claim says the preserved ideal column is the
screen column, inverse-mapped on the destination row.  Moving down from
the end of the wide line `文字` (logical column 2, screen column 4) onto
`abcdef`, the spec-worded mapping lands on logical column 4, but the code
keeps the raw code-point index and lands on column 2. -/
theorem c6_ideal_column_counterexample :
    (keyDown c6State).col = 2 ∧
    specScreenIdealDest ("文字".toList) 2 ("abcdef".toList) = 4 ∧
    (keyDown c6State).col ≠ specScreenIdealDest ("文字".toList) 2 ("abcdef".toList) := by
  decide

/-- C5 amended: `:<N>` performs a 1-based goto-line only for N within
`[1, lineCount]`, moving the cursor to row N-1, column 0; any out-of-range
N — negative values included — is rejected with a status message and no
cursor movement (it is not clamped, and a negative N does not go to the
last line). -/
theorem c5_goto_line_amended (st : EditorState) (n : Int) :
    (1 ≤ n → n ≤ st.lines.length →
      (handleGotoLine st n).1.row = (n - 1).toNat ∧ (handleGotoLine st n).1.col = 0 ∧
      (handleGotoLine st n).2 = none) ∧
    (n < 1 ∨ n > st.lines.length → handleGotoLine st n = (st, some outOfRangeMsg)) := by
  constructor
  · intro h1 h2
    have hio : ¬ (n < 1 ∨ n > (st.lines.length : Int)) := by omega
    have h0 : 0 ≤ n - 1 := by omega
    have hr : n - 1 < st.lines.length := by omega
    obtain ⟨line, hml⟩ := lineAtI_eq_some st.lines (n - 1) h0 hr
    have := jump_row_col st (n - 1) 0 line hml h0 hr (by omega) (by omega)
    simp [handleGotoLine, hio, this.1, this.2]
  · intro h
    simp [handleGotoLine, if_pos h]

/-- Witness for `c5_goto_line_amended`: on the two-line document, `:2` goes
to row 1, column 0, and `:-3` is rejected unchanged. -/
theorem c5_goto_line_amended_witness :
    ((1 : Int) ≤ 2 ∧ (2 : Int) ≤ c5State.lines.length ∧
      (handleGotoLine c5State 2).1.row = ((2 : Int) - 1).toNat ∧
      (handleGotoLine c5State 2).1.col = 0 ∧ (handleGotoLine c5State 2).2 = none) ∧
    (handleGotoLine c5State (-3) = (c5State, some outOfRangeMsg)) := by
  refine ⟨⟨by decide, by decide, ?_⟩, ?_⟩
  · exact (c5_goto_line_amended c5State 2).1 (by decide) (by decide)
  · exact (c5_goto_line_amended c5State (-3)).2 (by decide)

/-- C7 counterexample: the claim says `0 ≤ top ≤ max(0, lineCount-height)`
after any movement.  A far jump to row 28 of a 30-line document with a
10-row view recenters to `top = 28 - 10/2 = 23`, which exceeds the bound
`max(0, 30-10) = 20`. -/
theorem c7_viewport_counterexample :
    (jump c7State 28 0).top = 23 ∧
    ¬ (jump c7State 28 0).top ≤ max 0 ((c7State.lines.length : Int) - (c7State.height : Int)) := by
  decide

/-- C6 amended: the ideal column preserved across consecutive Up/Down
moves is the raw code-point column, not the screen column.  It is
initialized from the current column by the first vertical move whose
destination line is non-empty, and thereafter every vertical move keeps it
fixed and sets the cursor column to `min(lineLength, ideal)` on non-empty
destination lines and 0 on empty ones (any non-vertical editor key resets
the ideal column to -1, per the deferred reset in `editorEvent`). -/
theorem c6_vertical_ideal_amended :
    (∀ (u : Int) (st : EditorState) (moves : List Bool), 0 ≤ u →
      colIdealInv u st → colIdealInv u (applyMoves moves st)) ∧
    (∀ (st : EditorState) (l : Line), st.upDownCol = -1 →
      st.lines.get? (st.row + 1) = some l → l ≠ [] →
      (keyDown st).upDownCol = (st.col : Int) ∧ (keyDown st).col = min l.length st.col) := by
  constructor
  · intro u st moves hu h
    induction moves generalizing st with
    | nil => exact h
    | cons d rest ih =>
      show colIdealInv u (applyMoves rest (verticalMove d st))
      refine ih _ ?_
      cases d
      · exact keyDown_inv u st hu h
      · exact keyUp_inv u st hu h
  · intro st l hud hget hlne
    have hlt : st.row + 1 < st.lines.length := by
      by_contra hc
      rw [List.get?_eq_none.mpr (by omega)] at hget
      cases hget
    have hlen : ¬ l.length = 0 := by simpa [List.length_eq_zero] using hlne
    have hneg : ¬ (0 : Int) ≤ st.upDownCol := by
      rw [hud]
      norm_num
    simp only [keyDown]
    rw [if_neg (show ¬ ((st.row : Int)) = (st.lines.length : Int) - 1 by omega)]
    rw [hget]
    dsimp only
    rw [if_neg hlen, if_neg hneg]
    have hml : lineAtI st.lines ((st.row + 1 : Nat) : Int) = some l := by
      rw [lineAtI_nat st.lines (st.row + 1) hlt, hget]
    have hj := jump_row_col
      { st with lastEdit := none, lastLive := false, row := st.row + 1,
                col := min l.length st.col, upDownCol := (st.col : Int) }
      ((st.row + 1 : Nat) : Int) ((min l.length st.col : Nat) : Int) l hml
      (by omega) (by exact_mod_cast hlt) (by omega)
      (by exact_mod_cast Nat.min_le_left l.length st.col)
    constructor
    · rw [jump_upDownCol]
    · rw [hj.2]
      omega

/-- C6 witness: the invariant-preservation clause applied to the state
after the first move of the counterexample (ideal column 2) followed by a
further KeyDown, and the initialization clause applied to the
counterexample state itself. -/
theorem c6_vertical_ideal_amended_witness :
    ((0 : Int) ≤ 2 ∧ colIdealInv 2 (keyDown c6State) ∧
      colIdealInv 2 (applyMoves [false] (keyDown c6State))) ∧
    (c6State.upDownCol = -1 ∧ c6State.lines.get? (c6State.row + 1) = some ("abcdef".toList) ∧
      "abcdef".toList ≠ [] ∧
      (keyDown c6State).upDownCol = (c6State.col : Int) ∧
      (keyDown c6State).col = min ("abcdef".toList).length c6State.col) :=
  ⟨⟨by decide, by unfold colIdealInv; decide,
    c6_vertical_ideal_amended.1 2 (keyDown c6State) [false] (by decide)
      (by unfold colIdealInv; decide)⟩,
   by decide, by decide, by decide,
    c6_vertical_ideal_amended.2 c6State ("abcdef".toList) (by decide) (by decide) (by decide)⟩

/-- C7 amended: `jump` itself keeps the viewport on the cursor — for a
non-empty document, a positive view height and a non-negative incoming
`top`, after `jump` the state satisfies `0 ≤ top` and
`top ≤ cursorRow < top + height`; but the upper bound
`top ≤ max(0, lineCount-height)` of the claim can be exceeded by a far
jump, and wheel scrolling moves `top` without the cursor, so the claim
holds only for the cursor-following part of the invariant. -/
theorem c7_jump_viewport_amended (st : EditorState) (r c : Int)
    (hh : 1 ≤ st.height) (hne : st.lines ≠ []) (htop : 0 ≤ st.top) :
    0 ≤ (jump st r c).top ∧ (jump st r c).top ≤ ((jump st r c).row : Int) ∧
    ((jump st r c).row : Int) < (jump st r c).top + (st.height : Int) := by
  have hlen : 0 < st.lines.length := List.length_pos.mpr hne
  simp only [jump]
  set R : Int :=
    if r < 0 ∨ r > (st.lines.length : Int) - 1 then (st.lines.length : Int) - 1 else r with hR
  have hR0 : 0 ≤ R := by rw [hR]; split <;> omega
  have hR1 : R ≤ (st.lines.length : Int) - 1 := by rw [hR]; split <;> omega
  obtain ⟨line, hml⟩ := lineAtI_eq_some st.lines R hR0 (by omega)
  rw [hml]
  simp only []
  split_ifs <;> simp <;> omega

/-- C8 counterexample: the claim says the reorder is stable within the
substring-only group.  For keyword `b` over files `ab`, `azb`, `ba`, the
swap-based partition produces `ba, azb, ab`, inverting the original order
of the substring-only matches `ab`, `azb` that the spec-worded stable
reorder preserves. -/
theorem c8_stable_reorder_counterexample :
    consoleFileRune c8Files ['b'] [] (-1) = (["ba".toList, "azb".toList, "ab".toList], 0) ∧
    specStableReorder ['b'] (filterFiles c8Files ['b']) =
      ["ba".toList, "ab".toList, "azb".toList] ∧
    (consoleFileRune c8Files ['b'] [] (-1)).1 ≠
      specStableReorder ['b'] (filterFiles c8Files ['b']) := by decide

/-- C9 counterexample: the claim says every saved file ends with exactly
one trailing newline.  A buffer whose last two lines are empty is written
as `a\n\n`, which ends with two newlines. -/
theorem c9_trailing_newline_counterexample :
    saveContent c9Lines = "a\n\n".toList ∧
    endsWithOneNewline (saveContent c9Lines) = false := by decide

/-- C8 amended: each character insert or delete in filename-open mode and
in `@`-symbol mode re-filters the candidates by case-insensitive substring
match and reorders them so that every prefix match precedes every
substring-only match; the relative order is preserved for the prefix-match
group, but the substring-only group may come out permuted (the partition
swaps elements in place and is not stable); the selected index resets to 0
when anything matches, and the candidate list is cleared when nothing
does.  Filename mode partitions the file list with a case-sensitive prefix
test; `@` mode collects receiver-qualified symbol names, sorts them, and
partitions with a case-insensitive prefix test. -/
theorem c8_filter_reorder_amended :
    (∀ (files : List Str) (keyword : Str) (prevOptions : List Str) (prevIdx : Int),
      files ≠ [] →
      (filterFiles files keyword = [] →
        consoleFileRune files keyword prevOptions prevIdx = ([], prevIdx)) ∧
      (filterFiles files keyword ≠ [] →
        (consoleFileRune files keyword prevOptions prevIdx).2 = 0 ∧
        ∃ r, (consoleFileRune files keyword prevOptions prevIdx).1 =
            (filterFiles files keyword).filter (fun n => decide (keyword <+: n)) ++ r ∧
          r.Perm ((filterFiles files keyword).filter (fun n => !(decide (keyword <+: n)))))) ∧
    (∀ (syms : List Symbol) (keyword : Str) (prevOptions : List Str) (prevIdx : Int),
      keyword ≠ [] →
      (filterSymbols syms keyword = [] →
        consoleSymbolRune syms keyword prevOptions prevIdx = ([], prevIdx)) ∧
      (filterSymbols syms keyword ≠ [] →
        (consoleSymbolRune syms keyword prevOptions prevIdx).2 = 0 ∧
        ∃ r, (consoleSymbolRune syms keyword prevOptions prevIdx).1 =
            (sortStrings (filterSymbols syms keyword)).filter
              (fun n => decide (lowerStr keyword <+: lowerStr n)) ++ r ∧
          r.Perm ((sortStrings (filterSymbols syms keyword)).filter
            (fun n => !(decide (lowerStr keyword <+: lowerStr n)))))) := by
  constructor
  · intro files keyword prevOptions prevIdx hfe
    constructor
    · intro hemp
      simp [consoleFileRune, hfe, hemp]
    · intro hne
      obtain ⟨r, h1, h2⟩ :=
        moveForwardAux_spec (fun n => decide (keyword <+: n)) (filterFiles files keyword) [] []
      refine ⟨by simp [consoleFileRune, hfe, hne], r, ?_, by simpa using h2⟩
      simp only [consoleFileRune, if_neg hfe, if_neg hne]
      simpa [moveForward] using h1
  · intro syms keyword prevOptions prevIdx hke
    constructor
    · intro hemp
      simp [consoleSymbolRune, hke, hemp]
    · intro hne
      obtain ⟨r, h1, h2⟩ :=
        moveForwardAux_spec (fun n => decide (lowerStr keyword <+: lowerStr n))
          (sortStrings (filterSymbols syms keyword)) [] []
      refine ⟨by simp [consoleSymbolRune, hke, hne], r, ?_, by simpa using h2⟩
      simp only [consoleSymbolRune, if_neg hke, if_neg hne]
      simpa [moveForwardCI] using h1

/-- C8 witness: the amended characterization applied to the counterexample
file list (whose permuted substring-only group is `azb, ab`) and to a
concrete symbol table in `@` mode (where the method name `boo.Foo` is a
case-insensitive prefix match moved in front of `abc`). -/
theorem c8_filter_reorder_amended_witness :
    (c8Files ≠ [] ∧ filterFiles c8Files ['b'] ≠ []) ∧
    ((consoleFileRune c8Files ['b'] [] (-1)).2 = 0 ∧
      ∃ r, (consoleFileRune c8Files ['b'] [] (-1)).1 =
          (filterFiles c8Files ['b']).filter (fun n => decide (['b'] <+: n)) ++ r ∧
        r.Perm ((filterFiles c8Files ['b']).filter (fun n => !(decide (['b'] <+: n))))) ∧
    ((['b'] : Str) ≠ [] ∧ filterSymbols c8Syms ['b'] ≠ []) ∧
    ((consoleSymbolRune c8Syms ['b'] [] (-1)).2 = 0 ∧
      ∃ r, (consoleSymbolRune c8Syms ['b'] [] (-1)).1 =
          (sortStrings (filterSymbols c8Syms ['b'])).filter
            (fun n => decide (lowerStr ['b'] <+: lowerStr n)) ++ r ∧
        r.Perm ((sortStrings (filterSymbols c8Syms ['b'])).filter
          (fun n => !(decide (lowerStr ['b'] <+: lowerStr n))))) :=
  ⟨⟨by decide, by decide⟩,
    (c8_filter_reorder_amended.1 c8Files ['b'] [] (-1) (by decide)).2 (by decide),
    ⟨by decide, by decide⟩,
    (c8_filter_reorder_amended.2 c8Syms ['b'] [] (-1) (by decide)).2 (by decide)⟩

/-- C9 amended: a successful `>save` writes the buffer's lines joined with
a single newline after appending one empty line when the buffer is empty
or its last line is non-empty; consequently, when the buffer's last line
is non-empty the written file ends with exactly one trailing newline, but
a buffer that already ends in empty lines is written with that many
trailing newlines, and an empty buffer (or a lone empty line) produces an
empty file. -/
theorem c9_save_newline_amended (lines : List Line) (l : Line)
    (hl : lines.getLast? = some l) (hlne : l ≠ []) (hnl : '\n' ∉ l) :
    saveContent lines = joinNl (lines ++ [[]]) ∧
    endsWithOneNewline (saveContent lines) = true := by
  have hne : lines ≠ [] := by
    rintro rfl
    simp at hl
  have hlast : lines.getLastD [] = l := by
    rw [List.getLastD_eq_getLast?, hl]
    rfl
  have hcond : lines = [] ∨ lines.getLastD [] ≠ [] := Or.inr (hlast ▸ hlne)
  have hsc : saveContent lines = joinNl (lines ++ [[]]) := by
    simp only [saveContent, if_pos hcond]
  refine ⟨hsc, ?_⟩
  rw [hsc, joinNl_concat lines [] hne]
  obtain ⟨z, hz⟩ : ∃ z, l.getLast? = some z :=
    Option.isSome_iff_exists.mp (List.getLast?_isSome.mpr hlne)
  have hzl : z ∈ l := by
    obtain ⟨hlx, rfl⟩ := List.mem_getLast?_eq_getLast (l := l) (x := z)
      (by simp [Option.mem_def, hz])
    exact List.getLast_mem hlx
  have hzn : z ≠ '\n' := fun h => hnl (h ▸ hzl)
  have hJ : (joinNl lines).getLast? = some z := by
    rw [joinNl_getLast? lines l hl hlne, hz]
  have h1 : (joinNl lines ++ '\n' :: []).getLast? = some '\n' := by
    rw [show joinNl lines ++ '\n' :: [] = joinNl lines ++ ['\n'] from rfl]
    simp
  have h2 : (joinNl lines ++ '\n' :: []).dropLast = joinNl lines := by
    rw [show joinNl lines ++ '\n' :: [] = joinNl lines ++ ['\n'] from rfl]
    simp
  simp only [endsWithOneNewline, h1, h2, hJ]
  simp [hzn]

/-- C9 witness: the amended claim applied to the one-line buffer `ab`,
whose save output `ab\n` ends with exactly one newline. -/
theorem c9_save_newline_amended_witness :
    (([['a', 'b']] : List Line).getLast? = some ['a', 'b'] ∧ (['a', 'b'] : Line) ≠ [] ∧
      '\n' ∉ (['a', 'b'] : Line)) ∧
    saveContent [['a', 'b']] = joinNl ([['a', 'b']] ++ [[]]) ∧
    endsWithOneNewline (saveContent [['a', 'b']]) = true :=
  ⟨⟨by decide, by decide, by decide⟩,
    c9_save_newline_amended [['a', 'b']] ['a', 'b'] (by decide) (by decide) (by decide)⟩

/-- C7 witness: the amended bound applied to the far jump of the
counterexample state. -/
theorem c7_jump_viewport_amended_witness :
    (1 ≤ c7State.height ∧ c7State.lines ≠ [] ∧ 0 ≤ c7State.top) ∧
    0 ≤ (jump c7State 28 0).top ∧ (jump c7State 28 0).top ≤ ((jump c7State 28 0).row : Int) ∧
    ((jump c7State 28 0).row : Int) < (jump c7State 28 0).top + (c7State.height : Int) :=
  ⟨⟨by decide, by decide, by decide⟩,
    c7_jump_viewport_amended c7State 28 0 (by decide) (by decide) (by decide)⟩

/-- C3: for a journal whose coalescing pointer targets the top of the undo
stack, `recordEdit` merges the new edit into that top entry exactly when
`mergeCond` holds (same kind, never Replace, same row, within the 1-second
window, contiguous columns), combining the texts and refreshing the
timestamp; otherwise it pushes a fresh entry (and clears the redo stack).
Concretely, typing `a`, `b`, `c` at adjacent columns within the window
leaves exactly one undo entry `abc`, and typing `d` after the window adds
a second entry. -/
theorem c3_recordEdit_coalescing :
    (∀ (st : EditorState) (now : Int) (le e : Edit),
      st.lastEdit = some le → st.lastLive = true → st.undoStack.getLast? = some le →
      (mergeCond le e now →
        recordEdit st now e =
          { st with lastEdit := some (mergeEdit le e now)
                    undoStack := st.undoStack.dropLast ++ [mergeEdit le e now] }) ∧
      (¬ mergeCond le e now →
        recordEdit st now e =
          { st with undoStack := st.undoStack ++ [{ e with time := now }], redoStack := []
                    lastEdit := some { e with time := now }, lastLive := true })) ∧
    c3Typed.undoStack = [mergedABC] ∧
    (recordEdit c3Typed (200 + second) typeD).undoStack.length = 2 := by
  refine ⟨?_, by decide, by decide⟩
  intro st now le e hle hlive _htop
  constructor
  · rintro ⟨hk, hnr, hrow, htime, hcol⟩
    simp only [recordEdit, hle]
    rw [if_pos ⟨hk, hnr, hrow, htime⟩]
    rcases hcol with ⟨hki, hci⟩ | ⟨hkd, hcd⟩
    · rw [if_pos ⟨hki, hci⟩]
      simp [mergeEdit, hki, hlive]
    · have h1 : ¬ (e.kind = .insert ∧ le.col + goLen le.newText = e.col) := by
        rintro ⟨h, -⟩
        rw [hkd] at h
        exact absurd h (by decide)
      rw [if_neg h1, if_pos ⟨hkd, hcd⟩]
      have hki : ¬ e.kind = .insert := by
        rw [hkd]
        decide
      simp [mergeEdit, hki, hlive]
  · intro hm
    simp only [recordEdit, hle]
    by_cases ho : e.kind = le.kind ∧ e.kind ≠ .replace ∧ e.row = le.row ∧ now - le.time < second
    · rw [if_pos ho]
      by_cases h1 : e.kind = .insert ∧ le.col + goLen le.newText = e.col
      · exact absurd ⟨ho.1, ho.2.1, ho.2.2.1, ho.2.2.2, Or.inl h1⟩ hm
      rw [if_neg h1]
      by_cases h2 : e.kind = .delete ∧ (e.col : Int) = (le.col : Int) - (goLen e.oldText : Int)
      · exact absurd ⟨ho.1, ho.2.1, ho.2.2.1, ho.2.2.2, Or.inr h2⟩ hm
      rw [if_neg h2]
    · rw [if_neg ho]

/-- C3 witness: the merge clause applied to the concrete journal `c3Typed`
(whose live pointer targets its single entry `abc`) and the contiguous
insert `typeD` issued at 300ns. -/
theorem c3_recordEdit_coalescing_witness :
    (c3Typed.lastEdit = some mergedABC ∧ c3Typed.lastLive = true ∧
      c3Typed.undoStack.getLast? = some mergedABC ∧ mergeCond mergedABC typeD 300) ∧
    recordEdit c3Typed 300 typeD =
      { c3Typed with lastEdit := some (mergeEdit mergedABC typeD 300)
                     undoStack := c3Typed.undoStack.dropLast ++ [mergeEdit mergedABC typeD 300] } :=
  ⟨⟨by decide, by decide, by decide, by unfold mergeCond; decide⟩,
    (c3_recordEdit_coalescing.1 c3Typed 300 mergedABC typeD (by decide) (by decide)
      (by decide)).1 (by unfold mergeCond; decide)⟩

/-- C10: pressing Enter always empties both journal stacks and the
coalescing pointer without recording anything, and so does Backspace at
column 0 of a non-first row (the line-merge path); these structural edits
therefore cannot be undone and discard all previous undo history. -/
theorem c10_enter_backspace_clear_journal :
    (∀ (st : EditorState) (fast : Bool),
      (keyEnter st fast).undoStack = [] ∧ (keyEnter st fast).redoStack = [] ∧
      (keyEnter st fast).lastEdit = none) ∧
    (∀ (st : EditorState) (now : Int), st.col = 0 → st.row ≠ 0 →
      (keyBackspace st now).undoStack = [] ∧ (keyBackspace st now).redoStack = [] ∧
      (keyBackspace st now).lastEdit = none) := by
  constructor
  · intro st fast
    simp only [keyEnter]
    cases hml : st.lines.get? st.row <;>
      simp [hml, jump_undoStack, jump_redoStack, jump_lastEdit]
  · intro st now h0 hrow
    simp only [keyBackspace, if_pos h0, if_neg hrow]
    simp [jump_undoStack, jump_redoStack, jump_lastEdit]

/-- C10 witness: the two clearing paths evaluated on the concrete two-line
document with a non-empty journal. -/
theorem c10_enter_backspace_clear_journal_witness :
    (c10State.col = 0 ∧ c10State.row ≠ 0) ∧
    ((keyBackspace c10State 0).undoStack = [] ∧ (keyBackspace c10State 0).redoStack = [] ∧
      (keyBackspace c10State 0).lastEdit = none) ∧
    ((keyEnter c10State false).undoStack = [] ∧ (keyEnter c10State false).redoStack = [] ∧
      (keyEnter c10State false).lastEdit = none) :=
  ⟨⟨by decide, by decide⟩,
    c10_enter_backspace_clear_journal.2 c10State 0 (by decide) (by decide),
    c10_enter_backspace_clear_journal.1 c10State false⟩

end Seyi
